import Mathlib

/-!
Verification of the Notey backend's semantic retrieval-and-ranking pipeline.

Shallow embedding of the Python sources:
* strings are modelled as lists of Unicode code points (`List Nat`), so that
  Python's `str.lower`, `str.strip`, `str.replace` and substring tests become
  computable list functions;
* floats are modelled as rationals (`ℚ`);
* dicts keyed by ids are modelled as association lists in insertion order;
* the external embedding model, the cosine kernel of the vector library and
  the JSON parser are parameters of the definitions that call them.

Sources embedded:
* `models/concept_models.py` — concept-name normalization and mention
  validation (`ConceptMention.validate_name`, `ConceptUpsertRequest.validate_mentions`);
* `src/concept_extractor.py` — `extract_concepts_from_transcript`;
* `src/vector_search.py` — `encode_text`, `encode_batch`, `compute_similarity`,
  `search_concepts`;
* `src/routes_chat.py` (`chat_with_notes`) — the two-pass relevance aggregation;
* `src/routes_graph.py` (`export_graph`) — the MENTIONS edge aggregation.
-/

/-! ## Python string primitives over code-point lists -/

/-- Characters treated as whitespace by Python's `str.strip` (ASCII subset:
space, tab, LF, VT, FF, CR). -/
def pyIsSpace (n : Nat) : Bool :=
  n == 32 || n == 9 || n == 10 || n == 11 || n == 12 || n == 13

/-- Python `str.lower` on a single code point (ASCII letters). -/
def pyLowerChar (n : Nat) : Nat :=
  if 65 ≤ n ∧ n ≤ 90 then n + 32 else n

/-- Python `str.lower`. -/
def pyLower (s : List Nat) : List Nat :=
  s.map pyLowerChar

/-- Python `str.strip`: drop leading and trailing whitespace. -/
def pyStrip (s : List Nat) : List Nat :=
  ((s.dropWhile pyIsSpace).reverse.dropWhile pyIsSpace).reverse

/-- Python `s.replace('"','').replace("'","")`: remove every double-quote (34)
and single-quote (39) code point. -/
def removeQuotes (s : List Nat) : List Nat :=
  s.filter (fun n => decide ¬(n = 34 ∨ n = 39))

/-- Concept-name normalization from `ConceptMention.validate_name`
(`concept_models.py` line 16): `v.lower().strip().replace('"','').replace("'","")`. -/
def normalizeName (s : List Nat) : List Nat :=
  removeQuotes (pyStrip (pyLower s))

/-! ### Lemmas about the string primitives -/

theorem pyLowerChar_idem (n : Nat) : pyLowerChar (pyLowerChar n) = pyLowerChar n := by
  unfold pyLowerChar
  split
  · next h =>
    rw [if_neg (by omega)]
  · rfl

theorem pyLowerChar_not_quote (n : Nat) (h : n ≠ 34 ∧ n ≠ 39) :
    pyLowerChar n ≠ 34 ∧ pyLowerChar n ≠ 39 := by
  unfold pyLowerChar
  split
  · next hr => omega
  · exact h

theorem dropWhile_idem (p : Nat → Bool) (l : List Nat) :
    (l.dropWhile p).dropWhile p = l.dropWhile p := by
  induction l with
  | nil => rfl
  | cons a t ih =>
    by_cases h : p a
    · simp [List.dropWhile_cons, h, ih]
    · simp [List.dropWhile_cons, h]

theorem dropWhile_eq_self_of_dropWhile_append (p : Nat → Bool) (u t : List Nat)
    (hu : u.dropWhile p = u ++ t) : u.dropWhile p = u := by
  have hlen := congrArg List.length hu
  have hle : (u.dropWhile p).length ≤ u.length := by
    simpa using List.Sublist.length_le (List.dropWhile_sublist (l := u) (p := p))
  simp [List.length_append] at hlen
  have ht : t = [] := by
    cases t with
    | nil => rfl
    | cons x xs => simp at hlen; omega
  simpa [ht] using hu

/-- Members of `dropWhile` are members of the list. -/
theorem mem_of_mem_dropWhile {p : Nat → Bool} {l : List Nat} {a : Nat}
    (h : a ∈ l.dropWhile p) : a ∈ l :=
  List.Sublist.mem h (List.dropWhile_sublist (l := l) (p := p))

theorem mem_of_mem_pyStrip {l : List Nat} {a : Nat} (h : a ∈ pyStrip l) : a ∈ l := by
  unfold pyStrip at h
  rw [List.mem_reverse] at h
  have h2 := mem_of_mem_dropWhile h
  rw [List.mem_reverse] at h2
  exact mem_of_mem_dropWhile h2

/-- Lists whose members are all fixed by `pyLowerChar` are fixed by `pyLower`. -/
theorem pyLower_eq_self {l : List Nat} (h : ∀ a ∈ l, pyLowerChar a = a) :
    pyLower l = l := by
  unfold pyLower
  induction l with
  | nil => rfl
  | cons a t ih =>
    simp only [List.map_cons]
    rw [h a (by simp), ih (fun b hb => h b (by simp [hb]))]

/-- Lists with no quote characters are fixed by `removeQuotes`. -/
theorem removeQuotes_eq_self {l : List Nat} (h : ∀ a ∈ l, a ≠ 34 ∧ a ≠ 39) :
    removeQuotes l = l := by
  unfold removeQuotes
  apply List.filter_eq_self.mpr
  intro a ha
  have := h a ha
  simp [this.1, this.2]

/-- Every member of `removeQuotes l` is a non-quote character. -/
theorem not_quote_of_mem_removeQuotes {l : List Nat} {a : Nat}
    (h : a ∈ removeQuotes l) : a ≠ 34 ∧ a ≠ 39 := by
  unfold removeQuotes at h
  have := List.of_mem_filter h
  simp at this
  exact this

/-- If a list has no leading `p`-character, its prefixes obtained by `dropWhile`
from the reversed side also have none; used for strip idempotence. -/
theorem dropWhile_eq_self_of_head {p : Nat → Bool} {l : List Nat}
    (h : l.dropWhile p = l) {u v : List Nat} (huv : l = u ++ v) :
    u.dropWhile p = u := by
  cases u with
  | nil => rfl
  | cons a t =>
    have ha : p a = false := by
      have h2 := h
      rw [huv, List.cons_append, List.dropWhile_cons] at h2
      by_cases hpa : p a
      · exfalso
        rw [if_pos hpa] at h2
        have hlen := congrArg List.length h2
        have hle : ((t ++ v).dropWhile p).length ≤ (t ++ v).length := by
          simpa using List.Sublist.length_le
            (List.dropWhile_sublist (l := t ++ v) (p := p))
        simp [List.length_append] at hlen hle
        omega
      · simpa using hpa
    rw [List.dropWhile_cons, if_neg (by simp [ha])]

/-- `pyStrip` is idempotent. -/
theorem pyStrip_idem (s : List Nat) : pyStrip (pyStrip s) = pyStrip s := by
  unfold pyStrip
  set u := s.dropWhile pyIsSpace with hu
  set w := (u.reverse.dropWhile pyIsSpace).reverse with hw
  -- `w` is a prefix of `u`, and `u` has no leading whitespace, so neither has `w`.
  have hpre : ∃ v, u = w ++ v := by
    have hsuf : ∃ v, u.reverse = v ++ u.reverse.dropWhile pyIsSpace := by
      refine ⟨u.reverse.takeWhile pyIsSpace, ?_⟩
      exact (List.takeWhile_append_dropWhile (p := pyIsSpace) (l := u.reverse)).symm
    obtain ⟨v, hv⟩ := hsuf
    refine ⟨v.reverse, ?_⟩
    have := congrArg List.reverse hv
    simpa [hw] using this
  obtain ⟨v, hv⟩ := hpre
  have hufix : u.dropWhile pyIsSpace = u := by
    rw [hu]; exact dropWhile_idem _ _
  have hwfix : w.dropWhile pyIsSpace = w :=
    dropWhile_eq_self_of_head hufix hv
  rw [hwfix]
  -- the reversed side: `w.reverse = dropWhile pyIsSpace u.reverse` is already stripped
  have : w.reverse.dropWhile pyIsSpace = w.reverse := by
    rw [hw]
    simp only [List.reverse_reverse]
    exact dropWhile_idem _ _
  rw [this, hw]
  simp

/-- Characters surviving normalization are already lowercase. -/
theorem mem_normalizeName_lower {s : List Nat} {a : Nat} (h : a ∈ normalizeName s) :
    pyLowerChar a = a := by
  unfold normalizeName at h
  have h1 : a ∈ pyStrip (pyLower s) := List.mem_of_mem_filter h
  have h2 : a ∈ pyLower s := mem_of_mem_pyStrip h1
  unfold pyLower at h2
  obtain ⟨b, _, hb⟩ := List.mem_map.mp h2
  rw [← hb]
  exact pyLowerChar_idem b

/-! ## Mention validation (`concept_models.py`) -/

/-- ConceptMention's name validator (`concept_models.py` lines 13-19): normalize
and fail when the result is empty. `none` models a raised `ValidationError`. -/
def validate_name (raw : List Nat) : Option (List Nat) :=
  if (normalizeName raw).length < 1 then none else some (normalizeName raw)

/-- ConceptUpsertRequest's mention-list validation (`concept_models.py` lines
29-44) on the mentions' (already normalized) names: the `max_items=20` field
constraint, the non-emptiness check and the duplicate check
`len(names) != len(set(names))`. `none` models a raised `ValidationError`. -/
def validate_mentions (names : List (List Nat)) : Option (List (List Nat)) :=
  if names.length > 20 then none
  else if names = [] then none
  else if names.length ≠ names.dedup.length then none
  else some names

/-- Building the mentions of a ConceptUpsertRequest from raw names: each name
goes through `validate_name`, then the list-level validation runs. -/
def upsertMentions (raws : List (List Nat)) : Option (List (List Nat)) :=
  match raws.mapM validate_name with
  | none => none
  | some names => validate_mentions names

/-! ## C5: idempotence of concept-name normalization -/

/-- C5 counterexample: the claim "normalize(normalize(x)) == normalize(x) for
every string x" is false on the code. For the four-character input `" a"`
(double quote, space, letter a, double quote — code points 34, 32, 97, 34) the
first normalization strips nothing (the quotes shield the inner space) and then
deletes the quotes, leaving `␣a`; the second normalization strips the now
exposed leading space. -/
theorem C5_counterexample :
    normalizeName (normalizeName [34, 32, 97, 34]) ≠ normalizeName [34, 32, 97, 34] := by
  decide

/-- C5 (amended): the concept-name normalization (lowercase, then strip
leading/trailing whitespace, then remove all quote characters) is idempotent on
every input that contains no quote characters; in general a second
normalization can strip whitespace that the quote-removal step exposed. -/
theorem C5_normalize_idem_of_no_quotes (s : List Nat)
    (h : ∀ a ∈ s, a ≠ 34 ∧ a ≠ 39) :
    normalizeName (normalizeName s) = normalizeName s := by
  have hlq : ∀ a ∈ pyLower s, a ≠ 34 ∧ a ≠ 39 := by
    intro a ha
    obtain ⟨b, hb, rfl⟩ := List.mem_map.mp ha
    exact pyLowerChar_not_quote b (h b hb)
  have hsq : ∀ a ∈ pyStrip (pyLower s), a ≠ 34 ∧ a ≠ 39 := fun a ha =>
    hlq a (mem_of_mem_pyStrip ha)
  have h1 : normalizeName s = pyStrip (pyLower s) := by
    unfold normalizeName
    exact removeQuotes_eq_self hsq
  have hyfix : ∀ a ∈ normalizeName s, pyLowerChar a = a := fun a ha =>
    mem_normalizeName_lower ha
  calc normalizeName (normalizeName s)
      = removeQuotes (pyStrip (pyLower (normalizeName s))) := rfl
    _ = removeQuotes (pyStrip (normalizeName s)) := by rw [pyLower_eq_self hyfix]
    _ = removeQuotes (pyStrip (pyStrip (pyLower s))) := by rw [h1]
    _ = removeQuotes (pyStrip (pyLower s)) := by rw [pyStrip_idem]
    _ = normalizeName s := rfl

/-- C5 amended-claim witness at a concrete quote-free input `" A"`. -/
theorem C5_normalize_idem_witness :
    (∀ a ∈ ([32, 65] : List Nat), a ≠ 34 ∧ a ≠ 39) ∧
    normalizeName (normalizeName [32, 65]) = normalizeName [32, 65] :=
  ⟨by decide, C5_normalize_idem_of_no_quotes [32, 65] (by decide)⟩

/-! ## C6: validation of the mentions list -/

theorem mapM_validate_name_eq {raws names : List (List Nat)}
    (h : raws.mapM validate_name = some names) :
    names = raws.map normalizeName := by
  induction raws generalizing names with
  | nil =>
    simp only [List.mapM_nil, pure, Option.some.injEq] at h
    simp [← h]
  | cons a t ih =>
    simp only [List.mapM_cons, Option.bind_eq_bind, Option.bind_eq_some, pure,
      Option.some.injEq] at h
    obtain ⟨b, hb, rest, hrest, hcons⟩ := h
    have hbval : b = normalizeName a := by
      unfold validate_name at hb
      split at hb
      · exact absurd hb (by simp)
      · exact (Option.some.injEq .. ▸ hb).symm
    rw [← hcons, hbval, ih hrest, List.map_cons]

theorem not_nodup_of_getD_eq {l : List (List Nat)} {i j : Nat}
    (hij : i < j) (hj : j < l.length) (heq : l.getD i [] = l.getD j []) :
    ¬ l.Nodup := by
  intro hn
  have hi : i < l.length := lt_trans hij hj
  rw [List.getD_eq_getElem l [] hi, List.getD_eq_getElem l [] hj] at heq
  have := (List.Nodup.getElem_inj_iff hn).mp heq
  omega

theorem dedup_length_ne_of_not_nodup {l : List (List Nat)} (h : ¬ l.Nodup) :
    l.length ≠ l.dedup.length := by
  intro hlen
  have hsub : List.Sublist l.dedup l := List.dedup_sublist l
  have heq : l.dedup = l := hsub.eq_of_length hlen.symm
  exact h (heq ▸ List.nodup_dedup l)

/-- C6: validating the mentions list fails when the list is empty, when it has
more than 20 items, or when two raw names normalize to the same concept name
(casing/whitespace/quote differences collapse); a list with none of these
defects is accepted unchanged. -/
theorem C6_validate_mentions_spec :
    (validate_mentions [] = none) ∧
    (∀ names : List (List Nat), names.length > 20 → validate_mentions names = none) ∧
    (∀ raws : List (List Nat), ∀ i j : Nat, i < j → j < raws.length →
      normalizeName (raws.getD i []) = normalizeName (raws.getD j []) →
      upsertMentions raws = none) ∧
    (∀ names : List (List Nat), names ≠ [] → names.length ≤ 20 → names.Nodup →
      validate_mentions names = some names) := by
  refine ⟨rfl, ?_, ?_, ?_⟩
  · intro names hlen
    unfold validate_mentions
    rw [if_pos hlen]
  · intro raws i j hij hj heq
    unfold upsertMentions
    cases hm : raws.mapM validate_name with
    | none => rfl
    | some names =>
      have hmap := mapM_validate_name_eq hm
      have hlen : names.length = raws.length := by rw [hmap, List.length_map]
      have hi : i < raws.length := lt_trans hij hj
      have hdij : names.getD i [] = names.getD j [] := by
        rw [hmap]
        rw [List.getD_eq_getElem _ _ (by simpa using hi),
          List.getD_eq_getElem _ _ (by simpa using hj)]
        simp only [List.getElem_map]
        rw [List.getD_eq_getElem raws [] hi, List.getD_eq_getElem raws [] hj] at heq
        exact heq
      have hnd : ¬ names.Nodup := not_nodup_of_getD_eq hij (by omega) hdij
      have hddl := dedup_length_ne_of_not_nodup hnd
      unfold validate_mentions
      dsimp only
      split_ifs with h1 h2 <;> rfl
  · intro names hne hlen hnd
    unfold validate_mentions
    rw [if_neg (by omega), if_neg hne,
      if_neg (by rw [List.dedup_eq_self.mpr hnd]; simp)]

/-- C6 witness: the empty list is rejected; the raw names `"AI"` (code points
34,65,73,34) and `'ai'` (39,97,105,39) normalize to the same name `ai` and the
pair is rejected; the singleton list with name `ai` is accepted unchanged. -/
theorem C6_validate_mentions_witness :
    validate_mentions [] = none ∧
    upsertMentions [[34, 65, 73, 34], [39, 97, 105, 39]] = none ∧
    validate_mentions [[97, 105]] = some [[97, 105]] :=
  ⟨C6_validate_mentions_spec.1,
   C6_validate_mentions_spec.2.2.1 [[34, 65, 73, 34], [39, 97, 105, 39]] 0 1
     (by decide) (by decide) (by decide),
   C6_validate_mentions_spec.2.2.2 [[97, 105]] (by decide) (by decide) (by decide)⟩

/-! ## Concept extraction (`concept_extractor.py`) -/

/-- An element of the JSON array parsed from the generative response, as the
extractor's validation loop sees it: either not a JSON object, or an object
whose optional fields record whether the `name` and `score` keys are present.
Field values are taken post-coercion (`str(...)` / `float(...)`). -/
inductive JCand where
  | notObj : JCand
  | obj (name : Option (List Nat)) (score : Option ℚ) : JCand
deriving DecidableEq

/-- Validation of one candidate (`concept_extractor.py` lines 75-86): keep it
only when it is an object carrying both keys, the lowercased and stripped name
is non-empty with length at least 2, and the score lies in `[1.0, 5.0]`. -/
def keepCand : JCand → Option (List Nat × ℚ)
  | .notObj => none
  | .obj none _ => none
  | .obj (some _) none => none
  | .obj (some rawName) (some score) =>
    if pyStrip (pyLower rawName) ≠ [] ∧ 2 ≤ (pyStrip (pyLower rawName)).length ∧
        1 ≤ score ∧ score ≤ 5 then
      some (pyStrip (pyLower rawName), score)
    else
      none

/-- The extractor's validation loop (`concept_extractor.py` lines 73-86):
`for concept in concepts[:10]` appending each kept candidate. -/
def validConcepts (cands : List JCand) : List (List Nat × ℚ) :=
  (cands.take 10).foldl (fun acc c =>
    match keepCand c with
    | some m => acc ++ [m]
    | none => acc) []

/-- Outcome of the generative round trip, seen from the extractor. -/
inductive GenResult where
  | raises : GenResult
  | returns (text : List Nat) : GenResult

/-- Markdown code-fence stripping (`concept_extractor.py` lines 64-67):
`response_text[7:-3].strip()` after a ` ```json ` head, `[3:-3].strip()` after
a bare ` ``` ` head. -/
def stripCodeFence (t : List Nat) : List Nat :=
  if t.take 7 = [96, 96, 96, 106, 115, 111, 110] then
    pyStrip ((t.drop 7).take (t.length - 10))
  else if t.take 3 = [96, 96, 96] then
    pyStrip ((t.drop 3).take (t.length - 6))
  else t

/-- `extract_concepts_from_transcript` (`concept_extractor.py` lines 16-98).
The generative call is a parameter (`gen`), as is the JSON parser
(`parseJson`, `json.loads` restricted to arrays; `none` models a
`JSONDecodeError`). Every failure path of the source returns `[]`. -/
def extract_concepts_from_transcript (transcript : List Nat) (gen : GenResult)
    (parseJson : List Nat → Option (List JCand)) : List (List Nat × ℚ) :=
  if pyStrip transcript = [] then []
  else
    match gen with
    | .raises => []
    | .returns text =>
      match parseJson (stripCodeFence (pyStrip text)) with
      | none => []
      | some cands => validConcepts cands

/-- Appending-fold form of the validation loop equals `filterMap`. -/
theorem foldl_keep_eq_filterMap (l : List JCand) (acc : List (List Nat × ℚ)) :
    l.foldl (fun acc c =>
      match keepCand c with
      | some m => acc ++ [m]
      | none => acc) acc = acc ++ l.filterMap keepCand := by
  induction l generalizing acc with
  | nil => simp
  | cons c t ih =>
    cases hk : keepCand c with
    | none => simp [List.foldl_cons, hk, ih]
    | some m => simp [List.foldl_cons, hk, ih]

/-- C7: every mention returned by the extractor's validation comes from one of
the first 10 parsed candidates, an object with both `name` and `score` keys;
its name is the lowercased stripped candidate name of length at least 2, its
score lies in `[1, 5]`; failing candidates are dropped (the loop is exactly a
`filterMap` of the per-candidate check over the first 10 candidates), and at
most 10 mentions are returned. -/
theorem C7_valid_concepts_spec (cands : List JCand) :
    validConcepts cands = (cands.take 10).filterMap keepCand ∧
    (validConcepts cands).length ≤ 10 ∧
    (∀ m ∈ validConcepts cands, ∃ rawName score,
      JCand.obj (some rawName) (some score) ∈ cands.take 10 ∧
      m = (pyStrip (pyLower rawName), score) ∧
      2 ≤ (pyStrip (pyLower rawName)).length ∧ 1 ≤ score ∧ score ≤ 5) := by
  have heq : validConcepts cands = (cands.take 10).filterMap keepCand := by
    unfold validConcepts
    simpa using foldl_keep_eq_filterMap (cands.take 10) []
  refine ⟨heq, ?_, ?_⟩
  · rw [heq]
    calc ((cands.take 10).filterMap keepCand).length
        ≤ (cands.take 10).length := List.length_filterMap_le _ _
      _ ≤ 10 := List.length_take_le 10 cands
  · intro m hm
    rw [heq] at hm
    obtain ⟨c, hc, hkeep⟩ := List.mem_filterMap.mp hm
    cases c with
    | notObj => simp [keepCand] at hkeep
    | obj nm sc =>
      cases nm with
      | none => simp [keepCand] at hkeep
      | some rn =>
        cases sc with
        | none => simp [keepCand] at hkeep
        | some s =>
          refine ⟨rn, s, hc, ?_⟩
          simp only [keepCand] at hkeep
          split at hkeep
          · next hcond =>
            obtain ⟨hne, hlen, hlo, hhi⟩ := hcond
            simp only [Option.some.injEq] at hkeep
            exact ⟨hkeep.symm, hlen, hlo, hhi⟩
          · exact absurd hkeep (by simp)

/-- C8: the extractor returns the empty list on an empty or whitespace-only
transcript, when the generative round trip raises, and when the (fence
stripped) response fails to parse as JSON; no failure propagates to the
caller. -/
theorem C8_extraction_nonfatal (transcript : List Nat) (gen : GenResult)
    (parseJson : List Nat → Option (List JCand)) :
    (pyStrip transcript = [] →
      extract_concepts_from_transcript transcript gen parseJson = []) ∧
    (gen = GenResult.raises →
      extract_concepts_from_transcript transcript gen parseJson = []) ∧
    (∀ text, gen = GenResult.returns text →
      parseJson (stripCodeFence (pyStrip text)) = none →
      extract_concepts_from_transcript transcript gen parseJson = []) := by
  refine ⟨?_, ?_, ?_⟩
  · intro h
    simp [extract_concepts_from_transcript, h]
  · intro h
    subst h
    simp [extract_concepts_from_transcript]
  · intro text hgen hparse
    subst hgen
    simp [extract_concepts_from_transcript, hparse]

/-- C8 witness: a whitespace-only transcript, a raising round trip, and an
unparseable response each yield the empty list at concrete inputs. -/
theorem C8_extraction_nonfatal_witness :
    extract_concepts_from_transcript [32] (GenResult.returns [91, 93])
      (fun _ => some []) = [] ∧
    extract_concepts_from_transcript [104] GenResult.raises
      (fun _ => some []) = [] ∧
    extract_concepts_from_transcript [104] (GenResult.returns [120])
      (fun _ => none) = [] :=
  ⟨(C8_extraction_nonfatal [32] (GenResult.returns [91, 93]) (fun _ => some [])).1
     (by decide),
   (C8_extraction_nonfatal [104] GenResult.raises (fun _ => some [])).2.1 rfl,
   (C8_extraction_nonfatal [104] (GenResult.returns [120]) (fun _ => none)).2.2
     [120] rfl rfl⟩

/-! ## Vector search (`vector_search.py`) -/

/-- `encode_text` (`vector_search.py` lines 35-48): empty or whitespace-only
text encodes to the 384-dimensional zero vector (the hard-coded default size
for the `all-MiniLM-L6-v2` model); otherwise the stripped text goes through the
embedding model, which is the parameter `modelOne`. -/
def encode_text (modelOne : List Nat → List ℚ) (text : List Nat) : List ℚ :=
  if pyStrip text = [] then List.replicate 384 0
  else modelOne (pyStrip text)

/-- The `(valid_indices, valid_texts)` pairs collected by `encode_batch`'s
first loop (`vector_search.py` lines 64-70): index and stripped text of every
entry that is non-empty after stripping, in order, starting at index `k`. -/
def validIdxTexts : Nat → List (List Nat) → List (Nat × List Nat)
  | _, [] => []
  | k, t :: ts =>
    if pyStrip t = [] then validIdxTexts (k + 1) ts
    else (k, pyStrip t) :: validIdxTexts (k + 1) ts

/-- The scatter loop of `encode_batch` (`vector_search.py` lines 79-81):
`result = zeros(len(texts), dim)` then `result[valid_idx] = embeddings[j]`.
Because the valid indices are exactly the non-whitespace positions in
increasing order, the scatter is reproduced by walking the texts and consuming
the embedding rows in order. -/
def fillRows (dim : Nat) : List (List Nat) → List (List ℚ) → List (List ℚ)
  | [], _ => []
  | t :: ts, embs =>
    if pyStrip t = [] then List.replicate dim 0 :: fillRows dim ts embs
    else embs.headD (List.replicate dim 0) :: fillRows dim ts embs.tail

/-- `encode_batch` (`vector_search.py` lines 50-83). The batched embedding
model is the parameter `modelB`; `dim` is `embeddings.shape[1]`. -/
def encode_batch (modelB : List (List Nat) → List (List ℚ))
    (texts : List (List Nat)) : List (List ℚ) :=
  if texts = [] then []
  else if validIdxTexts 0 texts = [] then
    List.replicate texts.length (List.replicate 384 0)
  else
    fillRows ((modelB ((validIdxTexts 0 texts).map Prod.snd)).headD []).length
      texts (modelB ((validIdxTexts 0 texts).map Prod.snd))

theorem validIdxTexts_eq_nil {ts : List (List Nat)} (k : Nat)
    (h : ∀ t ∈ ts, pyStrip t = []) : validIdxTexts k ts = [] := by
  induction ts generalizing k with
  | nil => rfl
  | cons t ts ih =>
    unfold validIdxTexts
    rw [if_pos (h t (by simp))]
    exact ih (k + 1) (fun u hu => h u (by simp [hu]))

theorem fillRows_length (dim : Nat) (ts : List (List Nat)) (embs : List (List ℚ)) :
    (fillRows dim ts embs).length = ts.length := by
  induction ts generalizing embs with
  | nil => rfl
  | cons t ts ih =>
    unfold fillRows
    by_cases h : pyStrip t = [] <;> simp [h, ih]

theorem fillRows_getD_of_ws (dim : Nat) {ts : List (List Nat)} {i : Nat}
    (hi : i < ts.length) (hws : pyStrip (ts.getD i []) = []) (embs : List (List ℚ)) :
    (fillRows dim ts embs).getD i [] = List.replicate dim 0 := by
  induction ts generalizing i embs with
  | nil => simp at hi
  | cons t ts ih =>
    cases i with
    | zero =>
      simp only [List.getD_cons_zero] at hws
      unfold fillRows
      rw [if_pos hws]
      simp
    | succ m =>
      simp only [List.getD_cons_succ] at hws
      have hm : m < ts.length := by simpa using hi
      unfold fillRows
      by_cases h : pyStrip t = []
      · rw [if_pos h]
        simpa using ih hm hws embs
      · rw [if_neg h]
        simpa using ih hm hws embs.tail

/-- C9: `encode_batch` returns one row per input text; every empty or
whitespace-only text yields the all-zero row of the model's dimensionality
(384 for the configured model) at its original index; an all-blank input list
yields the all-zero matrix, and the empty input list yields the empty
matrix. `modelB` is assumed to return one 384-dimensional row per input. -/
theorem C9_encode_batch_spec (modelB : List (List Nat) → List (List ℚ))
    (texts : List (List Nat))
    (hlen : ∀ ts, (modelB ts).length = ts.length)
    (hdim : ∀ ts r, r ∈ modelB ts → r.length = 384) :
    (encode_batch modelB texts).length = texts.length ∧
    (∀ i, i < texts.length → pyStrip (texts.getD i []) = [] →
      (encode_batch modelB texts).getD i [] = List.replicate 384 0) ∧
    ((∀ t ∈ texts, pyStrip t = []) →
      encode_batch modelB texts =
        List.replicate texts.length (List.replicate 384 0)) ∧
    (texts = [] → encode_batch modelB texts = []) := by
  by_cases hn : texts = []
  · subst hn
    refine ⟨rfl, ?_, ?_, fun _ => rfl⟩
    · intro i hi
      simp at hi
    · intro _
      rfl
  · by_cases hv : validIdxTexts 0 texts = []
    · have hb : encode_batch modelB texts =
          List.replicate texts.length (List.replicate 384 0) := by
        unfold encode_batch
        rw [if_neg hn, if_pos hv]
      refine ⟨by rw [hb, List.length_replicate], ?_, fun _ => hb, fun h => absurd h hn⟩
      intro i hi _
      rw [hb, List.getD_eq_getElem _ _ (by rw [List.length_replicate]; exact hi),
        List.getElem_replicate]
    · have hdim384 :
          ((modelB ((validIdxTexts 0 texts).map Prod.snd)).headD []).length = 384 := by
        cases hemb : modelB ((validIdxTexts 0 texts).map Prod.snd) with
        | nil =>
          exfalso
          have h1 := hlen ((validIdxTexts 0 texts).map Prod.snd)
          rw [hemb] at h1
          have h2 : (validIdxTexts 0 texts).length = 0 := by
            rw [List.length_map] at h1
            exact h1.symm
          exact hv (List.length_eq_zero.mp h2)
        | cons r rs =>
          rw [List.headD_cons]
          exact hdim ((validIdxTexts 0 texts).map Prod.snd) r (by rw [hemb]; simp)
      have hb : encode_batch modelB texts =
          fillRows 384 texts (modelB ((validIdxTexts 0 texts).map Prod.snd)) := by
        unfold encode_batch
        rw [if_neg hn, if_neg hv, hdim384]
      refine ⟨by rw [hb, fillRows_length], ?_, ?_, fun h => absurd h hn⟩
      · intro i hi hws
        rw [hb]
        exact fillRows_getD_of_ws 384 hi hws _
      · intro hall
        exact absurd (validIdxTexts_eq_nil 0 hall) hv

/-- C9 witness at a concrete model stub and the input `["", "hi"]`: two rows
come back, the first being the zero row. -/
theorem C9_encode_batch_witness :
    (encode_batch (fun ts => ts.map (fun _ => List.replicate 384 1))
        [[], [104, 105]]).length = 2 ∧
    (encode_batch (fun ts => ts.map (fun _ => List.replicate 384 1))
        [[], [104, 105]]).getD 0 [] = List.replicate 384 0 := by
  have h := C9_encode_batch_spec (fun ts => ts.map (fun _ => List.replicate 384 1))
    [[], [104, 105]]
    (fun ts => by rw [List.length_map])
    (fun ts r hr => by
      obtain ⟨b, hb, hbr⟩ := List.mem_map.mp hr
      rw [← hbr, List.length_replicate])
  exact ⟨h.1, h.2.1 0 (by decide) (by decide)⟩

/-! ## Stable descending sort (Python `list.sort(key=..., reverse=True)`) -/

/-- Insert `x` into a descending-sorted list, after every element whose key is
strictly greater — the insertion position of a stable descending sort, so an
element inserted later (originally earlier) lands before equal-keyed ones. -/
def insertDesc {α : Type} (key : α → ℚ) (x : α) : List α → List α
  | [] => [x]
  | y :: ys => if key x < key y then y :: insertDesc key x ys else x :: y :: ys

/-- Stable descending insertion sort; extensionally equal to CPython's stable
`list.sort(key=..., reverse=True)`. -/
def sortDesc {α : Type} (key : α → ℚ) : List α → List α
  | [] => []
  | a :: l => insertDesc key a (sortDesc key l)

theorem insertDesc_perm {α : Type} (key : α → ℚ) (x : α) (l : List α) :
    List.Perm (insertDesc key x l) (x :: l) := by
  induction l with
  | nil => rfl
  | cons y ys ih =>
    unfold insertDesc
    by_cases h : key x < key y
    · rw [if_pos h]
      exact (List.Perm.cons y ih).trans (List.Perm.swap x y ys)
    · rw [if_neg h]

theorem sortDesc_perm {α : Type} (key : α → ℚ) (l : List α) :
    List.Perm (sortDesc key l) l := by
  induction l with
  | nil => rfl
  | cons a l ih =>
    exact (insertDesc_perm key a (sortDesc key l)).trans (List.Perm.cons a ih)

theorem insertDesc_sorted {α : Type} (key : α → ℚ) (x : α) {l : List α}
    (h : l.Sorted (fun a b => key b ≤ key a)) :
    (insertDesc key x l).Sorted (fun a b => key b ≤ key a) := by
  induction l with
  | nil => simp [insertDesc]
  | cons y ys ih =>
    rw [List.sorted_cons] at h
    unfold insertDesc
    by_cases hxy : key x < key y
    · rw [if_pos hxy]
      rw [List.sorted_cons]
      refine ⟨?_, ih h.2⟩
      intro b hb
      have hmem := (insertDesc_perm key x ys).mem_iff.mp hb
      cases hmem with
      | head => exact le_of_lt hxy
      | tail _ hb2 => exact h.1 b hb2
    · rw [if_neg hxy]
      rw [List.sorted_cons]
      refine ⟨?_, List.sorted_cons.mpr h⟩
      intro b hb
      cases hb with
      | head => exact le_of_not_lt hxy
      | tail _ hb2 => exact le_trans (h.1 b hb2) (le_of_not_lt hxy)

theorem sortDesc_sorted {α : Type} (key : α → ℚ) (l : List α) :
    (sortDesc key l).Sorted (fun a b => key b ≤ key a) := by
  induction l with
  | nil => simp [sortDesc]
  | cons a l ih => exact insertDesc_sorted key a ih

/-- Stability of the insertion step: filtering any key-class out of an
insertion prepends `x` exactly when `x` is in that class. -/
theorem filter_insertDesc {α : Type} (key : α → ℚ) (x : α) (l : List α) (s : ℚ) :
    (insertDesc key x l).filter (fun a => decide (key a = s)) =
      if key x = s then x :: l.filter (fun a => decide (key a = s))
      else l.filter (fun a => decide (key a = s)) := by
  induction l with
  | nil =>
    by_cases hx : key x = s <;> simp [insertDesc, hx]
  | cons y ys ih =>
    unfold insertDesc
    by_cases hxy : key x < key y
    · rw [if_pos hxy]
      by_cases hy : key y = s
      · have hx : ¬ key x = s := by
          intro hx
          rw [hx, hy] at hxy
          exact lt_irrefl s hxy
        rw [if_neg hx]
        simp only [List.filter_cons, hy]
        rw [ih, if_neg hx]
      · simp only [List.filter_cons]
        rw [ih]
        by_cases hx : key x = s <;> simp [hx, hy]
    · rw [if_neg hxy]
      by_cases hx : key x = s <;> simp [List.filter_cons, hx]

/-- Stability of the sort: each key-class of the output is the key-class
subsequence of the input, in its original order. -/
theorem filter_sortDesc {α : Type} (key : α → ℚ) (l : List α) (s : ℚ) :
    (sortDesc key l).filter (fun a => decide (key a = s)) =
      l.filter (fun a => decide (key a = s)) := by
  induction l with
  | nil => rfl
  | cons a l ih =>
    unfold sortDesc
    rw [filter_insertDesc]
    by_cases ha : key a = s <;> simp [List.filter_cons, ha, ih]

/-- A list whose keys are all equal is left unchanged by the sort. -/
theorem sortDesc_eq_self_of_const {α : Type} (key : α → ℚ) (v : ℚ) {l : List α}
    (h : ∀ x ∈ l, key x = v) : sortDesc key l = l := by
  induction l with
  | nil => rfl
  | cons a l ih =>
    unfold sortDesc
    rw [ih (fun x hx => h x (by simp [hx]))]
    cases l with
    | nil => rfl
    | cons b t =>
      unfold insertDesc
      rw [if_neg (by rw [h a (by simp), h b (by simp)]; exact lt_irrefl v)]

/-! ## Similarity and concept search (`vector_search.py`) -/

/-- `compute_similarity` (`vector_search.py` lines 85-108): the vector
library's cosine kernel (parameter `cosK`, sklearn's `cosine_similarity`,
which treats a zero vector as having cosine 0 against anything) applied to
each candidate row, rescaled from `[-1,1]` to `[0,1]` by `(cos+1)/2`. -/
def compute_similarity (cosK : List ℚ → List ℚ → ℚ) (q : List ℚ)
    (cands : List (List ℚ)) : List ℚ :=
  cands.map (fun c => (cosK q c + 1) / 2)

/-- A concept record (`{id, name}`) as fetched from storage. -/
structure ConceptRec where
  id : Nat
  name : List Nat
deriving DecidableEq

/-- `search_concepts` (`vector_search.py` lines 110-149): empty query or empty
candidate list short-circuits to `[]`; otherwise encode the query and the
candidate names, attach the rescaled similarity to each concept, keep those
with `similarity_score >= threshold`, stable-sort descending by similarity and
truncate to `limit`. -/
def search_concepts (modelB : List (List Nat) → List (List ℚ))
    (modelOne : List Nat → List ℚ) (cosK : List ℚ → List ℚ → ℚ)
    (query : List Nat) (concepts : List ConceptRec)
    (limit : Nat) (threshold : ℚ) : List (ConceptRec × ℚ) :=
  if query = [] ∨ concepts = [] then []
  else
    (sortDesc (fun p => p.2)
      ((concepts.zip (compute_similarity cosK (encode_text modelOne query)
        (encode_batch modelB (concepts.map ConceptRec.name)))).filter
          (fun p => decide (threshold ≤ p.2)))).take limit

theorem encode_batch_length (modelB : List (List Nat) → List (List ℚ))
    (texts : List (List Nat)) :
    (encode_batch modelB texts).length = texts.length := by
  unfold encode_batch
  split
  · next h => subst h; rfl
  · split
    · rw [List.length_replicate]
    · rw [fillRows_length]

/-- C3: `search_concepts` returns at most `limit` items, every returned item
has `similarity_score >= threshold`, the output is sorted by non-increasing
similarity, and equal-similarity items keep their original candidate order
(each similarity class of the output is a sublist of the similarity class of
the scored candidate list). -/
theorem C3_search_concepts_spec (modelB : List (List Nat) → List (List ℚ))
    (modelOne : List Nat → List ℚ) (cosK : List ℚ → List ℚ → ℚ)
    (query : List Nat) (concepts : List ConceptRec)
    (limit : Nat) (threshold : ℚ) :
    (search_concepts modelB modelOne cosK query concepts limit threshold).length ≤ limit ∧
    (∀ p ∈ search_concepts modelB modelOne cosK query concepts limit threshold,
      threshold ≤ p.2) ∧
    (search_concepts modelB modelOne cosK query concepts limit threshold).Sorted
      (fun a b => b.2 ≤ a.2) ∧
    (∀ s : ℚ,
      List.Sublist
        ((search_concepts modelB modelOne cosK query concepts limit threshold).filter
          (fun p => decide (p.2 = s)))
        ((concepts.zip (compute_similarity cosK (encode_text modelOne query)
          (encode_batch modelB (concepts.map ConceptRec.name)))).filter
            (fun p => decide (p.2 = s)))) := by
  unfold search_concepts
  split
  · refine ⟨by simp, by simp, by simp, fun s => by simp⟩
  · next hcond =>
    set entries := concepts.zip (compute_similarity cosK (encode_text modelOne query)
      (encode_batch modelB (concepts.map ConceptRec.name))) with hentries
    set filtered := entries.filter (fun p => decide (threshold ≤ p.2)) with hfiltered
    refine ⟨List.length_take_le limit _, ?_, ?_, ?_⟩
    · intro p hp
      have h1 : p ∈ sortDesc (fun p => p.2) filtered := List.mem_of_mem_take hp
      have h2 : p ∈ filtered := (sortDesc_perm (fun p => p.2) filtered).mem_iff.mp h1
      have h3 := List.of_mem_filter h2
      exact of_decide_eq_true h3
    · have hsorted := sortDesc_sorted (fun p : ConceptRec × ℚ => p.2) filtered
      exact List.Pairwise.sublist (List.take_sublist limit _) hsorted
    · intro s
      have h1 : List.Sublist
          (((sortDesc (fun p => p.2) filtered).take limit).filter
            (fun p => decide (p.2 = s)))
          ((sortDesc (fun p => p.2) filtered).filter (fun p => decide (p.2 = s))) :=
        List.Sublist.filter _ (List.take_sublist limit _)
      rw [filter_sortDesc (fun p => p.2) filtered s] at h1
      refine h1.trans ?_
      exact List.Sublist.filter _ (List.filter_sublist entries)

theorem zip_map_const {α β : Type} (v : ℚ) (l : List α) (m : List β)
    (h : m.length = l.length) :
    l.zip (m.map (fun _ => v)) = l.map (fun x => (x, v)) := by
  induction l generalizing m with
  | nil => simp
  | cons a t ih =>
    cases m with
    | nil => simp at h
    | cons b mt =>
      simp only [List.map_cons, List.zip_cons_cons, List.map]
      rw [ih mt (by simpa using h)]

/-- C10: a non-empty but whitespace-only query does not take the empty-query
early return; it encodes to the zero vector, so (with sklearn's zero-vector
cosine convention) every candidate's rescaled similarity is `1/2`, and for any
threshold at most `1/2` every candidate is returned in original order (up to
`limit`) with `similarity_score = 1/2`. -/
theorem C10_whitespace_query (modelB : List (List Nat) → List (List ℚ))
    (modelOne : List Nat → List ℚ) (cosK : List ℚ → List ℚ → ℚ)
    (query : List Nat) (concepts : List ConceptRec)
    (limit : Nat) (threshold : ℚ)
    (hq : query ≠ []) (hqws : pyStrip query = []) (hc : concepts ≠ [])
    (hcos : ∀ c, cosK (List.replicate 384 0) c = 0)
    (hth : threshold ≤ 1/2) :
    search_concepts modelB modelOne cosK query concepts limit threshold =
      (concepts.map (fun c => (c, (1 : ℚ)/2))).take limit := by
  unfold search_concepts
  rw [if_neg (by simp [hq, hc])]
  have hqe : encode_text modelOne query = List.replicate 384 0 := by
    unfold encode_text
    rw [if_pos hqws]
  rw [hqe]
  have hsims : compute_similarity cosK (List.replicate 384 0)
      (encode_batch modelB (concepts.map ConceptRec.name)) =
      (encode_batch modelB (concepts.map ConceptRec.name)).map (fun _ => (1 : ℚ)/2) := by
    unfold compute_similarity
    apply List.map_congr_left
    intro c _
    rw [hcos c]
    norm_num
  rw [hsims, zip_map_const]
  · have hall : ∀ p ∈ concepts.map (fun x => (x, (1 : ℚ)/2)), p.2 = 1/2 := by
      intro p hp
      obtain ⟨c, _, hcp⟩ := List.mem_map.mp hp
      rw [← hcp]
    have hkept : (concepts.map (fun x => (x, (1 : ℚ)/2))).filter
        (fun p => decide (threshold ≤ p.2)) =
        concepts.map (fun x => (x, (1 : ℚ)/2)) := by
      apply List.filter_eq_self.mpr
      intro p hp
      rw [hall p hp]
      exact decide_eq_true hth
    rw [hkept, sortDesc_eq_self_of_const (fun p : ConceptRec × ℚ => p.2) (1/2) hall]
  · rw [encode_batch_length, List.length_map]

/-- C10 witness at concrete stubs: a single-space query against one candidate
with threshold `1/2` returns that candidate with score `1/2`. -/
theorem C10_whitespace_query_witness :
    search_concepts (fun ts => ts.map (fun _ => List.replicate 384 1))
      (fun _ => List.replicate 384 1) (fun _ _ => 0) [32]
      [ConceptRec.mk 1 [97]] 5 (1/2) =
      (([ConceptRec.mk 1 [97]] : List ConceptRec).map
        (fun c => (c, (1 : ℚ)/2))).take 5 :=
  C10_whitespace_query (fun ts => ts.map (fun _ => List.replicate 384 1))
    (fun _ => List.replicate 384 1) (fun _ _ => 0) [32] [ConceptRec.mk 1 [97]] 5 (1/2)
    (by decide) (by decide) (by decide) (fun c => rfl) le_rfl

/-! ## Association lists in insertion order (Python dicts keyed by ids) -/

section AssocList

variable {K C : Type} [DecidableEq K]

/-- Lookup of the first entry with the given key. -/
def alookup (k : K) : List (K × C) → Option C
  | [] => none
  | (q, c) :: r => if q = k then some c else alookup k r

/-- Update the first entry with the given key in place. -/
def aupdate (k : K) (f : C → C) : List (K × C) → List (K × C)
  | [] => []
  | (q, c) :: r => if q = k then (q, f c) :: r else (q, c) :: aupdate k f r

theorem alookup_aupdate_self (k : K) (f : C → C) (l : List (K × C)) :
    alookup k (aupdate k f l) = (alookup k l).map f := by
  induction l with
  | nil => rfl
  | cons p r ih =>
    obtain ⟨q, c⟩ := p
    by_cases h : q = k
    · simp [aupdate, alookup, h]
    · simp [aupdate, alookup, h, ih]

theorem alookup_aupdate_ne {k q : K} (h : q ≠ k) (f : C → C) (l : List (K × C)) :
    alookup k (aupdate q f l) = alookup k l := by
  induction l with
  | nil => rfl
  | cons p r ih =>
    obtain ⟨q2, c⟩ := p
    simp only [aupdate]
    by_cases h2 : q2 = q
    · rw [if_pos h2]
      simp only [alookup]
      have hk : ¬ q2 = k := by rw [h2]; exact h
      rw [if_neg hk, if_neg hk]
    · rw [if_neg h2]
      simp only [alookup]
      by_cases h3 : q2 = k
      · rw [if_pos h3, if_pos h3]
      · rw [if_neg h3, if_neg h3, ih]

theorem alookup_append_single (k q : K) (c : C) (l : List (K × C)) :
    alookup k (l ++ [(q, c)]) =
      match alookup k l with
      | some c0 => some c0
      | none => if q = k then some c else none := by
  induction l with
  | nil => simp [alookup]
  | cons p r ih =>
    obtain ⟨q2, c2⟩ := p
    by_cases h : q2 = k <;> simp [alookup, h, ih]

theorem alookup_eq_none_iff {k : K} {l : List (K × C)} :
    alookup k l = none ↔ ∀ p ∈ l, p.1 ≠ k := by
  induction l with
  | nil => simp [alookup]
  | cons p r ih =>
    obtain ⟨q, c⟩ := p
    by_cases h : q = k <;> simp [alookup, h, ih]

theorem mem_of_alookup_eq_some {k : K} {c : C} {l : List (K × C)}
    (h : alookup k l = some c) : (k, c) ∈ l := by
  induction l with
  | nil => simp [alookup] at h
  | cons p r ih =>
    obtain ⟨q, c2⟩ := p
    by_cases h2 : q = k
    · subst h2
      simp [alookup] at h
      simp [h]
    · simp [alookup, h2] at h
      simp [ih h]

theorem aupdate_keys (k : K) (f : C → C) (l : List (K × C)) :
    (aupdate k f l).map Prod.fst = l.map Prod.fst := by
  induction l with
  | nil => rfl
  | cons p r ih =>
    obtain ⟨q, c⟩ := p
    by_cases h : q = k <;> simp [aupdate, h, ih]

theorem mem_aupdate {p : K × C} {k : K} {f : C → C} {l : List (K × C)}
    (h : p ∈ aupdate k f l) : p ∈ l ∨ ∃ q ∈ l, p.1 = q.1 ∧ p.2 = f q.2 := by
  induction l with
  | nil => simp [aupdate] at h
  | cons hd r ih =>
    obtain ⟨q2, c2⟩ := hd
    by_cases h2 : q2 = k
    · rw [aupdate, if_pos h2] at h
      cases h with
      | head => exact Or.inr ⟨(q2, c2), by simp, rfl, rfl⟩
      | tail _ hr => exact Or.inl (List.mem_cons_of_mem _ hr)
    · rw [aupdate, if_neg h2] at h
      cases h with
      | head => exact Or.inl (by simp)
      | tail _ hr =>
        cases ih hr with
        | inl hm => exact Or.inl (by simp [hm])
        | inr hm =>
          obtain ⟨q, hq, h1, h2⟩ := hm
          exact Or.inr ⟨q, by simp [hq], h1, h2⟩

end AssocList

/-! ## Two-pass relevance aggregation (`routes_chat.py`, `chat_with_notes`) -/

/-- A candidate note as the aggregation loop sees it: the dict built from a
chunk-concept join or from direct transcript search. `concept_score` and
`similarity_score` are optional because either provenance supplies only one of
them (`note.get(key, 0)` defaults the other to 0). -/
structure Note where
  event_id : Nat
  event_title : List Nat
  event_date : List Nat
  transcript : List Nat
  summary : List Nat
  concept_score : Option ℚ
  similarity_score : Option ℚ
deriving DecidableEq

/-- Python's substring test `needle in hay`. -/
def strContains (hay needle : List Nat) : Bool :=
  (List.range (hay.length + 1)).any (fun i =>
    decide ((hay.drop i).take needle.length = needle))

/-- The code points of the literal `Meet1`. -/
def meet1 : List Nat := [77, 101, 101, 116, 49]

/-- One iteration of the first pass (`routes_chat.py` lines 288-309): skip a
note whose title contains `Meet1` when its similarity is below 0.2; otherwise
admit its event when `concept_score >= 0.4` or `similarity_score >= 0.3` (both
scores defaulting to 0 when absent). The accumulator models the Python `set`
as a duplicate-free list in insertion order. -/
def pass1Step (acc : List Nat) (note : Note) : List Nat :=
  if strContains note.event_title meet1 ∧ note.similarity_score.getD 0 < mkRat 1 5 then acc
  else if mkRat 2 5 ≤ note.concept_score.getD 0 ∨ mkRat 3 10 ≤ note.similarity_score.getD 0 then
    (if note.event_id ∈ acc then acc else acc ++ [note.event_id])
  else acc

/-- The first pass over `context_notes[:20]` building `relevant_events`. -/
def relevantEvents (notes : List Note) : List Nat :=
  (notes.take 20).foldl pass1Step []

theorem mem_pass1Step {acc : List Nat} {note : Note} {e : Nat} :
    e ∈ pass1Step acc note ↔ e ∈ acc ∨
      (note.event_id = e ∧
        ¬(strContains note.event_title meet1 ∧ note.similarity_score.getD 0 < mkRat 1 5) ∧
        (mkRat 2 5 ≤ note.concept_score.getD 0 ∨ mkRat 3 10 ≤ note.similarity_score.getD 0)) := by
  unfold pass1Step
  split
  · next hskip =>
    constructor
    · intro h
      exact Or.inl h
    · intro h
      cases h with
      | inl h2 => exact h2
      | inr h2 => exact absurd hskip h2.2.1
  · next hskip =>
    split
    · next hadm =>
      by_cases hin : note.event_id ∈ acc
      · rw [if_pos hin]
        constructor
        · intro h
          exact Or.inl h
        · intro h
          cases h with
          | inl h2 => exact h2
          | inr h2 => exact h2.1 ▸ hin
      · rw [if_neg hin]
        rw [List.mem_append]
        constructor
        · intro h
          cases h with
          | inl h2 => exact Or.inl h2
          | inr h2 =>
            simp at h2
            exact Or.inr ⟨h2.symm, hskip, hadm⟩
        · intro h
          cases h with
          | inl h2 => exact Or.inl h2
          | inr h2 => exact Or.inr (by simp [h2.1])
    · next hadm =>
      constructor
      · intro h
        exact Or.inl h
      · intro h
        cases h with
        | inl h2 => exact h2
        | inr h2 => exact absurd h2.2.2 hadm

theorem mem_foldl_pass1Step (l : List Note) (acc : List Nat) (e : Nat) :
    e ∈ l.foldl pass1Step acc ↔ e ∈ acc ∨
      ∃ note ∈ l, note.event_id = e ∧
        ¬(strContains note.event_title meet1 ∧ note.similarity_score.getD 0 < mkRat 1 5) ∧
        (mkRat 2 5 ≤ note.concept_score.getD 0 ∨ mkRat 3 10 ≤ note.similarity_score.getD 0) := by
  induction l generalizing acc with
  | nil => simp
  | cons n t ih =>
    rw [List.foldl_cons, ih, mem_pass1Step]
    constructor
    · intro h
      cases h with
      | inl h2 =>
        cases h2 with
        | inl h3 => exact Or.inl h3
        | inr h3 => exact Or.inr ⟨n, by simp, h3⟩
      | inr h2 =>
        obtain ⟨note, hn, hrest⟩ := h2
        exact Or.inr ⟨note, by simp [hn], hrest⟩
    · intro h
      cases h with
      | inl h2 => exact Or.inl (Or.inl h2)
      | inr h2 =>
        obtain ⟨note, hn, hrest⟩ := h2
        rw [List.mem_cons] at hn
        cases hn with
        | inl h3 => exact Or.inl (Or.inr (h3 ▸ hrest))
        | inr h3 => exact Or.inr ⟨note, h3, hrest⟩

/-- C1: pass 1 examines only the first 20 candidate notes; a note whose title
contains `Meet1` with similarity below 0.2 is excluded before the threshold
check; every other examined note admits its event exactly when
`concept_score >= 0.4` or `similarity_score >= 0.3` (absent scores default to
0), and no event enters the relevant set any other way. -/
theorem C1_pass1_spec (notes : List Note) (e : Nat) :
    e ∈ relevantEvents notes ↔
      ∃ note ∈ notes.take 20, note.event_id = e ∧
        ¬(strContains note.event_title meet1 ∧ note.similarity_score.getD 0 < mkRat 1 5) ∧
        (mkRat 2 5 ≤ note.concept_score.getD 0 ∨ mkRat 3 10 ≤ note.similarity_score.getD 0) := by
  unfold relevantEvents
  rw [mem_foldl_pass1Step]
  simp

/-- Per-event content accumulated by the second pass (`event_content[eid]`). -/
structure EventContent where
  event_title : List Nat
  event_date : List Nat
  transcripts : List (List Nat)
  summaries : List (List Nat)
deriving DecidableEq

/-- The entry created on first sight of a relevant event
(`routes_chat.py` lines 316-323). -/
def initContent (note : Note) : EventContent :=
  ⟨note.event_title, note.event_date, [], []⟩

/-- Appending one note's non-empty transcript and summary to its event's
content (`routes_chat.py` lines 325-329). -/
def addNote (note : Note) (c : EventContent) : EventContent :=
  { c with
    transcripts :=
      if note.transcript ≠ [] then c.transcripts ++ [note.transcript]
      else c.transcripts,
    summaries :=
      if note.summary ≠ [] then c.summaries ++ [note.summary]
      else c.summaries }

/-- One iteration of the second pass (`routes_chat.py` lines 313-329): notes
of relevant events create their event's entry on first sight and then always
append their non-empty content — with no threshold check. -/
def pass2Step (relevant : List Nat) (acc : List (Nat × EventContent)) (note : Note) :
    List (Nat × EventContent) :=
  if note.event_id ∈ relevant then
    aupdate note.event_id (addNote note)
      (if alookup note.event_id acc = none then
        acc ++ [(note.event_id, initContent note)]
      else acc)
  else acc

/-- The second pass over all candidate notes building `event_content`. -/
def eventContent (notes : List Note) (relevant : List Nat) :
    List (Nat × EventContent) :=
  notes.foldl (pass2Step relevant) []

/-- The transcripts contributed to event `e` by a run of notes: every
non-empty transcript of a note of that event, in order. -/
def transcriptsOf (e : Nat) (notes : List Note) : List (List Nat) :=
  notes.filterMap (fun n =>
    if n.event_id = e ∧ n.transcript ≠ [] then some n.transcript else none)

/-- The summaries contributed to event `e` by a run of notes. -/
def summariesOf (e : Nat) (notes : List Note) : List (List Nat) :=
  notes.filterMap (fun n =>
    if n.event_id = e ∧ n.summary ≠ [] then some n.summary else none)

/-- Python `" ".join`. -/
def joinSpace : List (List Nat) → List Nat
  | [] => []
  | [t] => t
  | t :: ts => t ++ 32 :: joinSpace ts

/-- The `combined_summary` set (`routes_chat.py` line 335 builds
`" ".join(set(summaries))`): the distinct summary texts of the event. Python
set iteration order is arbitrary; the set's contents are modelled as the
deduplicated list. -/
def combinedSummarySet (c : EventContent) : List (List Nat) :=
  c.summaries.dedup

/-- The `combined_transcript` of an event (`routes_chat.py` line 334). -/
def combinedTranscript (c : EventContent) : List Nat :=
  joinSpace c.transcripts

theorem mem_joinSpace {t : List Nat} {ts : List (List Nat)} (h : t ∈ ts) :
    ∃ u v, joinSpace ts = u ++ t ++ v := by
  induction ts with
  | nil => simp at h
  | cons x rest ih =>
    cases rest with
    | nil =>
      simp at h
      exact ⟨[], [], by simp [joinSpace, h]⟩
    | cons y rest2 =>
      rw [List.mem_cons] at h
      cases h with
      | inl h2 =>
        exact ⟨[], 32 :: joinSpace (y :: rest2), by simp [joinSpace, h2]⟩
      | inr h2 =>
        obtain ⟨u, v, huv⟩ := ih h2
        refine ⟨x ++ 32 :: u, v, ?_⟩
        have hj : joinSpace (x :: y :: rest2) = x ++ 32 :: joinSpace (y :: rest2) := rfl
        rw [hj, huv]
        simp

/-- Counting in a deduplicated list: one occurrence per member. -/
theorem count_dedup (l : List (List Nat)) (s : List Nat) :
    l.dedup.count s = if s ∈ l then 1 else 0 := by
  induction l with
  | nil => simp
  | cons a t ih =>
    by_cases hmem : a ∈ t
    · rw [List.dedup_cons_of_mem hmem, ih]
      by_cases hs : s = a
      · subst hs
        simp [hmem]
      · simp [hs]
    · rw [List.dedup_cons_of_not_mem hmem, List.count_cons, ih]
      by_cases hs : s = a
      · subst hs
        simp [hmem]
      · simp [hs, Ne.symm hs]

/-- Closed form of the second pass: for a relevant event `e`, the accumulated
entry carries the header of the first note of `e` and the concatenation of all
non-empty transcripts and summaries of `e`, in note order. -/
theorem eventContent_alookup (relevant : List Nat) (notes : List Note)
    (acc : List (Nat × EventContent)) (e : Nat) (he : e ∈ relevant) :
    alookup e (notes.foldl (pass2Step relevant) acc) =
      match alookup e acc with
      | some c => some { c with
          transcripts := c.transcripts ++ transcriptsOf e notes,
          summaries := c.summaries ++ summariesOf e notes }
      | none =>
        match notes.find? (fun m => decide (m.event_id = e)) with
        | none => none
        | some n0 => some ⟨n0.event_title, n0.event_date,
            transcriptsOf e notes, summariesOf e notes⟩ := by
  induction notes generalizing acc with
  | nil =>
    cases halk : alookup e acc with
    | none => simpa using halk
    | some c => simpa [transcriptsOf, summariesOf] using halk
  | cons n ns ih =>
    rw [List.foldl_cons, ih (pass2Step relevant acc n)]
    have htcons : transcriptsOf e (n :: ns) =
        (if n.event_id = e ∧ n.transcript ≠ [] then [n.transcript] else []) ++
          transcriptsOf e ns := by
      by_cases hc : n.event_id = e ∧ n.transcript ≠ [] <;>
        simp [transcriptsOf, List.filterMap_cons, hc]
    have hscons : summariesOf e (n :: ns) =
        (if n.event_id = e ∧ n.summary ≠ [] then [n.summary] else []) ++
          summariesOf e ns := by
      by_cases hc : n.event_id = e ∧ n.summary ≠ [] <;>
        simp [summariesOf, List.filterMap_cons, hc]
    by_cases hne : n.event_id = e
    · have hrel : n.event_id ∈ relevant := by rw [hne]; exact he
      have hf : (n :: ns).find? (fun m => decide (m.event_id = e)) = some n := by
        simp [List.find?_cons, hne]
      cases halk : alookup e acc with
      | some c =>
        have hstep : alookup e (pass2Step relevant acc n) = some (addNote n c) := by
          unfold pass2Step
          rw [if_pos hrel, hne]
          rw [if_neg (by rw [halk]; simp)]
          rw [alookup_aupdate_self, halk]
          rfl
        rw [hstep, htcons, hscons]
        simp only [addNote]
        by_cases ht : n.transcript = [] <;> by_cases hs : n.summary = [] <;>
          simp [ht, hs, hne, List.append_assoc]
      | none =>
        have hstep : alookup e (pass2Step relevant acc n) =
            some (addNote n (initContent n)) := by
          unfold pass2Step
          rw [if_pos hrel, hne]
          rw [if_pos halk]
          rw [alookup_aupdate_self, alookup_append_single, halk]
          simp
        rw [hstep, hf, htcons, hscons]
        simp only [addNote, initContent]
        by_cases ht : n.transcript = [] <;> by_cases hs : n.summary = [] <;>
          simp [ht, hs, hne]
    · have hstep : alookup e (pass2Step relevant acc n) = alookup e acc := by
        unfold pass2Step
        split
        · next hrel =>
          rw [alookup_aupdate_ne hne]
          split
          · next hnone =>
            rw [alookup_append_single]
            cases halk : alookup e acc <;> simp [hne]
          · rfl
        · rfl
      have hf : (n :: ns).find? (fun m => decide (m.event_id = e)) =
          ns.find? (fun m => decide (m.event_id = e)) := by
        simp [List.find?_cons, hne]
      rw [hstep, hf, htcons, hscons]
      simp [hne]

/-- C2: every candidate note (beyond the first 20 included) whose event was
admitted by pass 1 contributes: its non-empty transcript appears in the
event's transcript list (hence inside the space-joined combined transcript),
with no threshold condition on the note itself; and each distinct non-empty
summary text of the event occurs exactly once in the deduplicated
`combined_summary` set. -/
theorem C2_pass2_spec (notes : List Note) (note : Note)
    (hmem : note ∈ notes) (hrel : note.event_id ∈ relevantEvents notes) :
    ∃ c, alookup note.event_id (eventContent notes (relevantEvents notes)) = some c ∧
      (note.transcript ≠ [] →
        note.transcript ∈ c.transcripts ∧
        ∃ u v, combinedTranscript c = u ++ note.transcript ++ v) ∧
      (∀ s : List Nat,
        (combinedSummarySet c).count s =
          if ∃ n ∈ notes, n.event_id = note.event_id ∧ n.summary = s ∧ s ≠ [] then 1
          else 0) := by
  have hlk := eventContent_alookup (relevantEvents notes) notes [] note.event_id hrel
  cases hfind : notes.find? (fun m => decide (m.event_id = note.event_id)) with
  | none =>
    exfalso
    have := List.find?_eq_none.mp hfind note hmem
    simp at this
  | some n0 =>
    rw [hfind] at hlk
    refine ⟨⟨n0.event_title, n0.event_date, transcriptsOf note.event_id notes,
      summariesOf note.event_id notes⟩, hlk, ?_, ?_⟩
    · intro ht
      have hmemT : note.transcript ∈ transcriptsOf note.event_id notes :=
        List.mem_filterMap.mpr ⟨note, hmem, by simp [ht]⟩
      exact ⟨hmemT, mem_joinSpace hmemT⟩
    · intro s
      have hcd : (combinedSummarySet ⟨n0.event_title, n0.event_date,
          transcriptsOf note.event_id notes, summariesOf note.event_id notes⟩).count s =
          if s ∈ summariesOf note.event_id notes then 1 else 0 :=
        count_dedup (summariesOf note.event_id notes) s
      rw [hcd]
      have hiff : (s ∈ summariesOf note.event_id notes) ↔
          (∃ n ∈ notes, n.event_id = note.event_id ∧ n.summary = s ∧ s ≠ []) := by
        constructor
        · intro hmem2
          obtain ⟨n, hn, hfn⟩ := List.mem_filterMap.mp hmem2
          by_cases hc : n.event_id = note.event_id ∧ n.summary ≠ []
          · rw [if_pos hc] at hfn
            have hs2 : n.summary = s := by simpa using hfn
            exact ⟨n, hn, hc.1, hs2, hs2 ▸ hc.2⟩
          · rw [if_neg hc] at hfn
            simp at hfn
        · intro hex
          obtain ⟨n, hn, h1, h2, h3⟩ := hex
          refine List.mem_filterMap.mpr ⟨n, hn, ?_⟩
          rw [if_pos ⟨h1, by rw [h2]; exact h3⟩, h2]
      by_cases hex : ∃ n ∈ notes, n.event_id = note.event_id ∧ n.summary = s ∧ s ≠ []
      · rw [if_pos hex, if_pos (hiff.mpr hex)]
      · rw [if_neg hex, if_neg (fun hmem2 => hex (hiff.mp hmem2))]

/-- Two notes of the same event: the first passes the pass-1 threshold
(`concept_score = 0.5`), the second has no scores at all. -/
def demoNotes : List Note :=
  [⟨1, [116], [100], [97], [115], some (mkRat 1 2), none⟩,
   ⟨1, [116], [100], [98], [115], none, none⟩]

/-- C2 witness: the second demo note fails the thresholds, yet its transcript
`[98]` is collected for event 1, and the summary `[115]` shared by both notes
appears exactly once. -/
theorem C2_pass2_witness :
    ∃ c, alookup 1 (eventContent demoNotes (relevantEvents demoNotes)) = some c ∧
      [98] ∈ c.transcripts ∧ (combinedSummarySet c).count [115] = 1 := by
  obtain ⟨c, hc, ht, hs⟩ := C2_pass2_spec demoNotes
    ⟨1, [116], [100], [98], [115], none, none⟩ (by decide) (by decide)
  refine ⟨c, hc, (ht (by decide)).1, ?_⟩
  rw [hs [115], if_pos ?hex]
  case hex =>
    exact ⟨⟨1, [116], [100], [97], [115], some (mkRat 1 2), none⟩, by decide, rfl, rfl,
      by decide⟩

/-! ## Graph export MENTIONS aggregation (`routes_graph.py`, `export_graph`) -/

/-- An `audio_chunks` row as the graph export sees it. -/
structure ChunkRec where
  id : List Nat
  event_id : List Nat
deriving DecidableEq

/-- A `chunk_concepts` row with its joined `concepts(id,name)` object; `none`
models a missing or falsy join (`cc.get("concepts", {})`), and a `none` score
models a missing `score` key (`cc.get("score", 1.0)`). -/
structure CCRec where
  chunk_id : List Nat
  concept : Option (List Nat × List Nat)
  score : Option ℚ
deriving DecidableEq

/-- The per-pair aggregation state (`event_concept_links[key]`). -/
structure AggEntry where
  event_id : List Nat
  concept_id : List Nat
  total : ℚ
  count : Nat
deriving DecidableEq

/-- The dict key `f"{chunk_event_id}_{concept_id}"` (95 is `_`). -/
def ccKey (e c : List Nat) : List Nat := e ++ 95 :: c

/-- One iteration of the aggregation loop (`routes_graph.py` lines 119-161):
skip when the joined concept is falsy or no chunk matches (or the matched
chunk's event id is falsy); otherwise create the key's entry if absent and add
the link's score (default 1.0) and bump the mention count. -/
def ccStep (chunks : List ChunkRec) (acc : List (List Nat × AggEntry)) (cc : CCRec) :
    List (List Nat × AggEntry) :=
  match cc.concept with
  | none => acc
  | some (cid, _) =>
    match chunks.find? (fun ch => decide (ch.id = cc.chunk_id)) with
    | none => acc
    | some ch =>
      if ch.event_id = [] then acc
      else
        aupdate (ccKey ch.event_id cid)
          (fun a => { a with
            total := a.total + cc.score.getD 1,
            count := a.count + 1 })
          (if alookup (ccKey ch.event_id cid) acc = none then
            acc ++ [(ccKey ch.event_id cid, ⟨ch.event_id, cid, 0, 0⟩)]
          else acc)

/-- The aggregated `event_concept_links` map. -/
def eventConceptLinks (chunks : List ChunkRec) (ccs : List CCRec) :
    List (List Nat × AggEntry) :=
  ccs.foldl (ccStep chunks) []

/-- The code points of `event_` (node-id namespace of events). -/
def evTag : List Nat := [101, 118, 101, 110, 116, 95]

/-- The code points of `concept_` (node-id namespace of concepts). -/
def conTag : List Nat := [99, 111, 110, 99, 101, 112, 116, 95]

/-- A produced graph link; every link built by this loop has type MENTIONS
(`routes_graph.py` line 171). -/
structure GLink where
  source : List Nat
  target : List Nat
  score : ℚ
deriving DecidableEq

/-- The `MENTIONS` links (`routes_graph.py` lines 163-173): one per aggregated
entry, scored by `total_score / mention_count`. -/
def mentionsLinks (chunks : List ChunkRec) (ccs : List CCRec) : List GLink :=
  (eventConceptLinks chunks ccs).map (fun p =>
    ⟨evTag ++ p.2.event_id, conTag ++ p.2.concept_id, p.2.total / (p.2.count : ℚ)⟩)

/-- The score a single chunk-concept row contributes to the (event `e`,
concept `c`) pair, if any. -/
def ccHit (chunks : List ChunkRec) (e c : List Nat) (cc : CCRec) : Option ℚ :=
  match cc.concept with
  | none => none
  | some (cid, _) =>
    match chunks.find? (fun ch => decide (ch.id = cc.chunk_id)) with
    | none => none
    | some ch =>
      if ch.event_id = e ∧ cid = c then some (cc.score.getD 1) else none

/-- All scores contributed to the (event `e`, concept `c`) pair, in order. -/
def contribScores (chunks : List ChunkRec) (e c : List Nat) (ccs : List CCRec) :
    List ℚ :=
  ccs.filterMap (ccHit chunks e c)

/-- Key building is injective when event ids contain no underscore. -/
theorem ccKey_inj {e1 c1 e2 c2 : List Nat} (h1 : (95 : Nat) ∉ e1)
    (h2 : (95 : Nat) ∉ e2) (heq : ccKey e1 c1 = ccKey e2 c2) :
    e1 = e2 ∧ c1 = c2 := by
  induction e1 generalizing e2 with
  | nil =>
    cases e2 with
    | nil => simpa [ccKey] using heq
    | cons x t =>
      exfalso
      unfold ccKey at heq
      rw [List.nil_append, List.cons_append] at heq
      have hx : x = 95 := by
        have := congrArg (fun l => l.headD 0) heq
        simpa using this.symm
      exact h2 (by rw [hx]; simp)
  | cons a t ih =>
    cases e2 with
    | nil =>
      exfalso
      unfold ccKey at heq
      rw [List.nil_append, List.cons_append] at heq
      have ha : a = 95 := by
        have := congrArg (fun l => l.headD 0) heq
        simpa using this
      exact h1 (by rw [ha]; simp)
    | cons x t2 =>
      unfold ccKey at heq
      rw [List.cons_append, List.cons_append] at heq
      have hax : a = x ∧ t ++ 95 :: c1 = t2 ++ 95 :: c2 := by
        constructor
        · have := congrArg (fun l => l.headD 0) heq
          simpa using this
        · have := congrArg List.tail heq
          simpa using this
      have ht := ih (fun hm => h1 (by simp [hm])) (fun hm => h2 (by simp [hm])) hax.2
      exact ⟨by rw [hax.1, ht.1], ht.2⟩

/-- Lookup finds the value of a present key when keys are duplicate-free. -/
theorem alookup_eq_some_of_mem {K C : Type} [DecidableEq K]
    {l : List (K × C)} (hn : (l.map Prod.fst).Nodup) {k : K} {c : C}
    (h : (k, c) ∈ l) : alookup k l = some c := by
  induction l with
  | nil => simp at h
  | cons p r ih =>
    obtain ⟨q, c2⟩ := p
    rw [List.map_cons, List.nodup_cons] at hn
    rw [List.mem_cons] at h
    cases h with
    | inl h2 =>
      obtain ⟨hq, hc⟩ := Prod.mk.injEq .. ▸ h2
      rw [alookup, if_pos hq.symm, hc]
    | inr h2 =>
      by_cases hq : q = k
      · exfalso
        apply hn.1
        rw [hq]
        exact List.mem_map.mpr ⟨(k, c), h2, rfl⟩
      · rw [alookup, if_neg hq]
        exact ih hn.2 h2

/-- A list of entries sharing one key and with duplicate-free keys has at most
one entry. -/
theorem length_le_one_of_const_keys {C : Type} {l : List (List Nat × C)}
    {k : List Nat} (hn : (l.map Prod.fst).Nodup) (hk : ∀ p ∈ l, p.1 = k) :
    l.length ≤ 1 := by
  cases l with
  | nil => simp
  | cons p t =>
    cases t with
    | nil => simp
    | cons q r =>
      exfalso
      rw [List.map_cons, List.map_cons, List.nodup_cons] at hn
      apply hn.1
      rw [hk p (by simp), hk q (by simp)]
      simp

/-- Closed form of the aggregation fold for a fixed well-formed pair. -/
theorem eventConceptLinks_alookup (chunks : List ChunkRec)
    (hwf : ∀ ch ∈ chunks, ch.event_id ≠ [] ∧ (95 : Nat) ∉ ch.event_id)
    (e c : List Nat) (he95 : (95 : Nat) ∉ e)
    (ccs : List CCRec) (acc : List (List Nat × AggEntry)) :
    alookup (ccKey e c) (ccs.foldl (ccStep chunks) acc) =
      match alookup (ccKey e c) acc with
      | some a => some { a with
          total := a.total + (contribScores chunks e c ccs).sum,
          count := a.count + (contribScores chunks e c ccs).length }
      | none =>
        if contribScores chunks e c ccs = [] then none
        else some ⟨e, c, (contribScores chunks e c ccs).sum,
          (contribScores chunks e c ccs).length⟩ := by
  induction ccs generalizing acc with
  | nil =>
    cases halk : alookup (ccKey e c) acc with
    | none => simpa [contribScores] using halk
    | some a => simpa [contribScores] using halk
  | cons cc ccs ih =>
    rw [List.foldl_cons, ih (ccStep chunks acc cc)]
    have hcons : contribScores chunks e c (cc :: ccs) =
        (match ccHit chunks e c cc with
          | some s => [s]
          | none => []) ++ contribScores chunks e c ccs := by
      cases hhit : ccHit chunks e c cc <;>
        simp [contribScores, List.filterMap_cons, hhit]
    cases hcpt : cc.concept with
    | none =>
      have hstep : ccStep chunks acc cc = acc := by
        unfold ccStep
        rw [hcpt]
      have hhit : ccHit chunks e c cc = none := by
        unfold ccHit
        rw [hcpt]
      rw [hstep, hcons, hhit]
      simp
    | some pr =>
      obtain ⟨cid, cname⟩ := pr
      cases hfind : chunks.find? (fun ch => decide (ch.id = cc.chunk_id)) with
      | none =>
        have hstep : ccStep chunks acc cc = acc := by
          unfold ccStep
          rw [hcpt, hfind]
        have hhit : ccHit chunks e c cc = none := by
          unfold ccHit
          rw [hcpt, hfind]
        rw [hstep, hcons, hhit]
        simp
      | some ch =>
        have hch := hwf ch (List.mem_of_find?_eq_some hfind)
        have hstep : ccStep chunks acc cc =
            aupdate (ccKey ch.event_id cid)
              (fun a => { a with
                total := a.total + cc.score.getD 1,
                count := a.count + 1 })
              (if alookup (ccKey ch.event_id cid) acc = none then
                acc ++ [(ccKey ch.event_id cid, ⟨ch.event_id, cid, 0, 0⟩)]
              else acc) := by
          unfold ccStep
          rw [hcpt, hfind]
          dsimp only
          rw [if_neg hch.1]
        have hhit : ccHit chunks e c cc =
            (if ch.event_id = e ∧ cid = c then some (cc.score.getD 1) else none) := by
          unfold ccHit
          rw [hcpt, hfind]
        by_cases hk : ccKey ch.event_id cid = ccKey e c
        · have hec := ccKey_inj hch.2 he95 hk
          have hcond : ch.event_id = e ∧ cid = c := hec
          rw [hstep, hk]
          cases halk : alookup (ccKey e c) acc with
          | some a =>
            rw [if_neg (by simp), alookup_aupdate_self, halk]
            rw [hcons, hhit, if_pos hcond]
            simp [add_assoc]
            omega
          | none =>
            rw [if_pos (rfl : (none : Option AggEntry) = none),
              alookup_aupdate_self, alookup_append_single, halk]
            rw [hcons, hhit, if_pos hcond]
            have hne2 : ¬((cc.score.getD 1 :: contribScores chunks e c ccs) = []) := by
              simp
            simp only [Option.map_some, List.cons_append, List.nil_append]
            rw [if_pos trivial]
            rw [if_neg hne2]
            simp [add_comm]
            exact hcond
        · have hcond : ¬(ch.event_id = e ∧ cid = c) := by
            intro hcond2
            exact hk (by rw [hcond2.1, hcond2.2])
          have hlk : alookup (ccKey e c) (ccStep chunks acc cc) =
              alookup (ccKey e c) acc := by
            rw [hstep, alookup_aupdate_ne hk]
            split
            · rw [alookup_append_single]
              cases halk : alookup (ccKey e c) acc <;> simp [hk]
            · rfl
          rw [hlk, hcons, hhit, if_neg hcond]
          simp

/-- Well-formedness of an aggregation entry: its key is built from its stored
ids and its stored event id has no underscore. -/
def entryWF (p : List Nat × AggEntry) : Prop :=
  p.1 = ccKey p.2.event_id p.2.concept_id ∧ (95 : Nat) ∉ p.2.event_id

theorem ccStep_wf (chunks : List ChunkRec)
    (hwf : ∀ ch ∈ chunks, ch.event_id ≠ [] ∧ (95 : Nat) ∉ ch.event_id)
    (acc : List (List Nat × AggEntry)) (cc : CCRec)
    (hacc : ∀ p ∈ acc, entryWF p) :
    ∀ p ∈ ccStep chunks acc cc, entryWF p := by
  intro p hp
  unfold ccStep at hp
  cases hcpt : cc.concept with
  | none =>
    rw [hcpt] at hp
    exact hacc p hp
  | some pr =>
    obtain ⟨cid, cname⟩ := pr
    rw [hcpt] at hp
    cases hfind : chunks.find? (fun ch => decide (ch.id = cc.chunk_id)) with
    | none =>
      rw [hfind] at hp
      exact hacc p hp
    | some ch =>
      rw [hfind] at hp
      dsimp only at hp
      by_cases hev : ch.event_id = []
      · rw [if_pos hev] at hp
        exact hacc p hp
      · rw [if_neg hev] at hp
        have hch := hwf ch (List.mem_of_find?_eq_some hfind)
        have hbase : ∀ q ∈ (if alookup (ccKey ch.event_id cid) acc = none then
            acc ++ [(ccKey ch.event_id cid, (⟨ch.event_id, cid, 0, 0⟩ : AggEntry))]
          else acc), entryWF q := by
          intro q hq
          split at hq
          · rw [List.mem_append] at hq
            cases hq with
            | inl h2 => exact hacc q h2
            | inr h2 =>
              simp at h2
              rw [h2]
              exact ⟨rfl, hch.2⟩
          · exact hacc q hq
        cases mem_aupdate hp with
        | inl hmem => exact hbase p hmem
        | inr hmem =>
          obtain ⟨q, hq, h1, h2⟩ := hmem
          have hqwf := hbase q hq
          constructor
          · rw [h1, h2]
            exact hqwf.1
          · rw [h2]
            exact hqwf.2

theorem eventConceptLinks_wf (chunks : List ChunkRec)
    (hwf : ∀ ch ∈ chunks, ch.event_id ≠ [] ∧ (95 : Nat) ∉ ch.event_id)
    (ccs : List CCRec) :
    ∀ p ∈ eventConceptLinks chunks ccs, entryWF p := by
  suffices h : ∀ acc, (∀ p ∈ acc, entryWF p) →
      ∀ p ∈ ccs.foldl (ccStep chunks) acc, entryWF p by
    exact h [] (by simp)
  induction ccs with
  | nil =>
    intro acc hacc
    simpa using hacc
  | cons cc t ih =>
    intro acc hacc
    rw [List.foldl_cons]
    exact ih _ (ccStep_wf chunks hwf acc cc hacc)

theorem ccStep_keys_nodup (chunks : List ChunkRec)
    (acc : List (List Nat × AggEntry)) (cc : CCRec)
    (hacc : (acc.map Prod.fst).Nodup) :
    ((ccStep chunks acc cc).map Prod.fst).Nodup := by
  unfold ccStep
  cases cc.concept with
  | none => exact hacc
  | some pr =>
    obtain ⟨cid, cname⟩ := pr
    cases chunks.find? (fun ch => decide (ch.id = cc.chunk_id)) with
    | none => exact hacc
    | some ch =>
      dsimp only
      split
      · exact hacc
      · rw [aupdate_keys]
        split
        · next hnone =>
          rw [List.map_append]
          rw [List.nodup_append]
          refine ⟨hacc, by simp, ?_⟩
          intro k hk hk2
          simp at hk2
          rw [alookup_eq_none_iff] at hnone
          obtain ⟨p, hp, hpk⟩ := List.mem_map.mp hk
          exact hnone p hp (by rw [hpk, hk2])
        · exact hacc

theorem eventConceptLinks_keys_nodup (chunks : List ChunkRec) (ccs : List CCRec) :
    ((eventConceptLinks chunks ccs).map Prod.fst).Nodup := by
  suffices h : ∀ acc, (acc.map Prod.fst).Nodup →
      ((ccs.foldl (ccStep chunks) acc).map Prod.fst).Nodup by
    exact h [] (by simp)
  induction ccs with
  | nil =>
    intro acc hacc
    simpa using hacc
  | cons cc t ih =>
    intro acc hacc
    rw [List.foldl_cons]
    exact ih _ (ccStep_keys_nodup chunks acc cc hacc)

/-- C4: the graph export emits exactly one MENTIONS link per (event, concept)
pair occurring in at least one chunk-concept link of a chunk of that event,
and that link's score is the arithmetic mean of the contributing link scores.
Stated for event ids that are non-empty and underscore-free (as UUIDs are),
since the aggregation key is the string `event_id + "_" + concept_id`. -/
theorem C4_mentions_mean (chunks : List ChunkRec) (ccs : List CCRec)
    (hwf : ∀ ch ∈ chunks, ch.event_id ≠ [] ∧ (95 : Nat) ∉ ch.event_id)
    (e c : List Nat) (he95 : (95 : Nat) ∉ e) :
    ((mentionsLinks chunks ccs).filter
        (fun l => decide (l.source = evTag ++ e ∧ l.target = conTag ++ c))).length =
      (if contribScores chunks e c ccs = [] then 0 else 1) ∧
    (∀ l ∈ (mentionsLinks chunks ccs).filter
        (fun l => decide (l.source = evTag ++ e ∧ l.target = conTag ++ c)),
      l.score = (contribScores chunks e c ccs).sum /
        ((contribScores chunks e c ccs).length : ℚ)) := by
  have hfm : (mentionsLinks chunks ccs).filter
      (fun l => decide (l.source = evTag ++ e ∧ l.target = conTag ++ c)) =
      ((eventConceptLinks chunks ccs).filter
        (fun p => decide (p.2.event_id = e ∧ p.2.concept_id = c))).map
        (fun p => (⟨evTag ++ p.2.event_id, conTag ++ p.2.concept_id,
          p.2.total / (p.2.count : ℚ)⟩ : GLink)) := by
    unfold mentionsLinks
    rw [List.filter_map]
    congr 1
    apply List.filter_congr
    intro p _
    simp [Function.comp]
  have hlk0 : alookup (ccKey e c) (eventConceptLinks chunks ccs) =
      (if contribScores chunks e c ccs = [] then none
        else some ⟨e, c, (contribScores chunks e c ccs).sum,
          (contribScores chunks e c ccs).length⟩) := by
    have h := eventConceptLinks_alookup chunks hwf e c he95 ccs []
    simpa [eventConceptLinks] using h
  by_cases hcs : contribScores chunks e c ccs = []
  · rw [if_pos hcs] at hlk0
    have hfilt : (eventConceptLinks chunks ccs).filter
        (fun p => decide (p.2.event_id = e ∧ p.2.concept_id = c)) = [] := by
      rw [List.filter_eq_nil_iff]
      intro p hp
      simp only [decide_eq_true_eq]
      intro hpc
      have hwfp := eventConceptLinks_wf chunks hwf ccs p hp
      rw [alookup_eq_none_iff] at hlk0
      apply hlk0 p hp
      rw [hwfp.1, hpc.1, hpc.2]
    rw [if_pos hcs, hfm, hfilt]
    constructor
    · simp
    · intro l hl
      simp at hl
  · rw [if_neg hcs] at hlk0
    have hnodup := eventConceptLinks_keys_nodup chunks ccs
    have hmem : (ccKey e c,
        (⟨e, c, (contribScores chunks e c ccs).sum,
          (contribScores chunks e c ccs).length⟩ : AggEntry)) ∈
        eventConceptLinks chunks ccs :=
      mem_of_alookup_eq_some hlk0
    have huniq : ∀ p ∈ (eventConceptLinks chunks ccs).filter
        (fun p => decide (p.2.event_id = e ∧ p.2.concept_id = c)),
        p = (ccKey e c,
          (⟨e, c, (contribScores chunks e c ccs).sum,
            (contribScores chunks e c ccs).length⟩ : AggEntry)) := by
      intro p hp
      have hp1 := (List.mem_filter.mp hp).1
      have hpc := of_decide_eq_true (List.mem_filter.mp hp).2
      have hwfp := eventConceptLinks_wf chunks hwf ccs p hp1
      have hkey : p.1 = ccKey e c := by rw [hwfp.1, hpc.1, hpc.2]
      have hlkp : alookup (ccKey e c) (eventConceptLinks chunks ccs) = some p.2 := by
        rw [← hkey]
        exact alookup_eq_some_of_mem hnodup hp1
      rw [hlk0] at hlkp
      have hp2 : p.2 = ⟨e, c, (contribScores chunks e c ccs).sum,
          (contribScores chunks e c ccs).length⟩ := by
        simpa using hlkp.symm
      obtain ⟨pk, pv⟩ := p
      simp only at hkey hp2
      rw [hkey, hp2]
    have hmemf : (ccKey e c,
        (⟨e, c, (contribScores chunks e c ccs).sum,
          (contribScores chunks e c ccs).length⟩ : AggEntry)) ∈
        (eventConceptLinks chunks ccs).filter
          (fun p => decide (p.2.event_id = e ∧ p.2.concept_id = c)) :=
      List.mem_filter.mpr ⟨hmem, by simp⟩
    have hfnodup : (((eventConceptLinks chunks ccs).filter
        (fun p => decide (p.2.event_id = e ∧ p.2.concept_id = c))).map
          Prod.fst).Nodup :=
      List.Nodup.sublist (List.Sublist.map Prod.fst
        (List.filter_sublist (eventConceptLinks chunks ccs))) hnodup
    have hlen1 : ((eventConceptLinks chunks ccs).filter
        (fun p => decide (p.2.event_id = e ∧ p.2.concept_id = c))).length = 1 := by
      have hle := length_le_one_of_const_keys hfnodup
        (fun p hp => by rw [huniq p hp])
      have hge := List.length_pos.mpr (List.ne_nil_of_mem hmemf)
      omega
    rw [if_neg hcs, hfm]
    constructor
    · rw [List.length_map, hlen1]
    · intro l hl
      obtain ⟨p, hp, hpl⟩ := List.mem_map.mp hl
      rw [huniq p hp] at hpl
      rw [← hpl]

/-- Three chunks of one event `e1`. -/
def demoChunks : List ChunkRec :=
  [⟨[104, 49], [101, 49]⟩, ⟨[104, 50], [101, 49]⟩, ⟨[104, 51], [101, 49]⟩]

/-- The concept `c1` mentioned in all three chunks with scores 1, 3, 5. -/
def demoCCs : List CCRec :=
  [⟨[104, 49], some ([99, 49], [110]), some 1⟩,
   ⟨[104, 50], some ([99, 49], [110]), some 3⟩,
   ⟨[104, 51], some ([99, 49], [110]), some 5⟩]

/-- C4 witness: a concept mentioned in three chunks of the same event with
scores 1, 3 and 5 yields exactly one MENTIONS link, of score 3 (the mean). -/
theorem C4_mentions_mean_witness :
    ((mentionsLinks demoChunks demoCCs).filter
        (fun l => decide (l.source = evTag ++ [101, 49] ∧
          l.target = conTag ++ [99, 49]))).length = 1 ∧
    (∀ l ∈ (mentionsLinks demoChunks demoCCs).filter
        (fun l => decide (l.source = evTag ++ [101, 49] ∧
          l.target = conTag ++ [99, 49])),
      l.score = 3) := by
  have h := C4_mentions_mean demoChunks demoCCs (by decide) [101, 49] [99, 49]
    (by decide)
  have hc : contribScores demoChunks [101, 49] [99, 49] demoCCs = [1, 3, 5] := by
    decide
  constructor
  · rw [h.1, hc, if_neg (by decide)]
  · intro l hl
    have hsc := h.2 l hl
    rw [hc] at hsc
    rw [hsc]
    norm_num [List.sum_cons, List.sum_nil]
